import Mathlib

/-
  Verification development for the change-significance / cost-history core of the
  `infer-for-vscode` extension.

  The TypeScript sources are shallowly embedded below:
  * `getParameterTypesFromMethodDeclaration`, `getGenericTypeExtensions`,
    `significantCodeChangeCheck`, `resetNonConstantMethods`,
    `resetNonConstantMethodsForFile` from `src/javaCodeHandler.ts`;
  * `updateInferCostHistory` from the controller file.

  JavaScript strings are embedded as Lean `String`; JS `Array` as `List`;
  JS `Map` (insertion ordered) as an association list `List (key × value)`
  whose `set` overwrites in place; runtime failures (indexing `undefined`)
  are embedded as `Option.none`.  The regular expressions of the source are
  embedded as executable backtracking matchers that follow JS regex
  semantics (leftmost match, greedy quantifiers with backtracking,
  lookbehind, `m`/`g` flags).
-/

namespace InferForVSCode

/-! JS-style association map (insertion order preserved, `set` overwrites). -/

/-- JS `Map.get`: the entry with the given key, if any (`Map` keys are unique,
so taking the first entry is faithful). -/
def mapGet {α : Type} : List (String × α) → String → Option α
  | [], _ => none
  | p :: rest, k => if p.1 = k then some p.2 else mapGet rest k

/-- JS `Map.get` with a default for the absent case. -/
def mapGetD {α : Type} (m : List (String × α)) (k : String) (d : α) : α :=
  (mapGet m k).getD d

/-- JS `Map.set`: overwrite the entry in place if the key is present,
otherwise append the new entry at the end (insertion order). -/
def mapSet {α : Type} : List (String × α) → String → α → List (String × α)
  | [], k, v => [(k, v)]
  | p :: rest, k, v => if p.1 = k then (k, v) :: rest else p :: mapSet rest k v

/-! String helpers mirroring the JS string methods used by the source.
They are written as structural recursions over the character list so that
every definition evaluates inside the kernel. -/

/-- Index of the first occurrence of `sub` in `cs`, if any. -/
def findSubIdx (sub cs : List Char) : Option Nat :=
  (List.range (cs.length + 1)).find? (fun i => sub.isPrefixOf (cs.drop i))

/-- Split a character list on a non-empty separator (fuelled). -/
def splitOnListFuel (sep : List Char) : Nat → List Char → List (List Char)
  | 0, cs => [cs]
  | fuel + 1, cs =>
    match findSubIdx sep cs with
    | none => [cs]
    | some i => cs.take i :: splitOnListFuel sep fuel (cs.drop (i + sep.length))

/-- JS `String.prototype.split` with a string separator. -/
def jsSplit (s sep : String) : List String :=
  if sep = "" then s.toList.map (fun c => String.mk [c])
  else (splitOnListFuel sep.toList (s.toList.length + 1) s.toList).map String.mk

/-- JS `String.prototype.trim`. -/
def jsTrim (s : String) : String :=
  String.mk (((s.toList.dropWhile (fun c =>
    c == ' ' || c == '\t' || c == '\n' || c == '\r' || c == '\x0b' || c == '\x0c')).reverse.dropWhile
      (fun c =>
    c == ' ' || c == '\t' || c == '\n' || c == '\r' || c == '\x0b' || c == '\x0c')).reverse)

/-- JS `s.split(sep)[0]` for non-empty `sep`. -/
def splitHead (s sep : String) : String :=
  (jsSplit s sep).headD ""

/-- JS `String.prototype.replace(pat, rep)` with a *string* pattern:
replaces only the first occurrence. -/
def replaceFirst (s pat rep : String) : String :=
  if pat = "" then rep ++ s
  else
    match jsSplit s pat with
    | [] => s
    | [_] => s
    | x :: xs => x ++ rep ++ String.intercalate pat xs

/-- Substring containment test (JS unanchored regex / `String.includes`). -/
def containsSubstring (s sub : String) : Bool :=
  (jsSplit s sub).length ≥ 2

/-! ## Data model (`types.ts` / `inferController.ts`) -/

/-- One cost facet of a cost entry (`alloc_cost` / `exec_cost`). -/
structure CostFacet where
  polynomial : String
  degree : Int
  big_o : String
deriving DecidableEq

/-- Source location of a cost entry. -/
structure CostLoc where
  file : String
  lnum : Int
deriving DecidableEq

/-- `InferCostItem`: one method's measured cost for one analysis run. -/
structure InferCostItem where
  id : String
  method_name : String
  parameterTypes : List String
  loc : CostLoc
  alloc_cost : CostFacet
  exec_cost : CostFacet
  timestamp : Option String := none
  changeCauseMethods : Option (List String) := none
deriving DecidableEq

/-- The process-wide mutable state shared by `javaCodeHandler.ts` and
`inferController.ts`: the active file name, the saved text snapshots,
the Non-Constant Registry, the current cost list, the per-file cost map,
the per-id cost histories, and a counter of `significantCodeChange.fire()`
invocations (the emitted no-payload notification). -/
structure ExtensionState where
  activeFileName : String
  savedDocumentTexts : List (String × String)
  nonConstantMethods : List String
  currentInferCost : List InferCostItem
  inferCosts : List (String × List InferCostItem)
  inferCostHistories : List (String × List InferCostItem)
  significantCodeChangeFireCount : Nat
deriving DecidableEq

/-! ## Non-Constant Registry maintenance (`javaCodeHandler.ts`, lines 25-35) -/

/-- `nonConstantMethods = [];` -/
def resetNonConstantMethods (st : ExtensionState) : ExtensionState :=
  { st with nonConstantMethods := [] }

/-- JS `indexOf` + `splice(idx, 1)`: remove the first occurrence, if any. -/
def removeFirstOccurrence : List String → String → List String
  | [], _ => []
  | x :: xs, y => if x = y then xs else x :: removeFirstOccurrence xs y

/-- `resetNonConstantMethodsForFile`: for each item of the current cost list,
splice its `method_name` out of `nonConstantMethods` (first occurrence). -/
def resetNonConstantMethodsForFile (st : ExtensionState) : ExtensionState :=
  { st with nonConstantMethods :=
      (st.currentInferCost.foldl
        (fun ncm item => removeFirstOccurrence ncm item.method_name)
        st.nonConstantMethods) }

/-! ## Parameter-type extraction (`javaCodeHandler.ts`, lines 142-162) -/

/-- The Java modifier keywords of the regex
`/(public|protected|private|static|final|native|synchronized|abstract|transient)/`. -/
def javaModifiers : List String :=
  ["public", "protected", "private", "static", "final", "native",
   "synchronized", "abstract", "transient"]

/-- JS `parameterType.match(/(public|...|transient)/)`: the regex is
unanchored, so this is a substring test. -/
def containsModifier (s : String) : Bool :=
  javaModifiers.any (containsSubstring s)

/-- JS `s.split("<")[0]`. -/
def beforeLt (s : String) : String := splitHead s "<"

/-- JS `s.split("[")[0]`. -/
def beforeLBracket (s : String) : String := splitHead s "["

/-- The loop `for (let i = 1; parameterType.match(/(public|...)/); i++)
{ parameterType = parameterParts[i].split("<")[0]; }`: as long as the current
candidate contains a modifier keyword, move to the next token (each taken up to
`<`).  Running past the end of the token array indexes `undefined` and throws
in JS, embedded as `none`. -/
def stripModifierTokens : String → List String → Option String
  | cur, [] => if containsModifier cur then none else some cur
  | cur, t :: ts => if containsModifier cur then stripModifierTokens (beforeLt t) ts else some cur

/-- The loop `for (const typeExtension of typeExtensions) { if
(parameterType.split("[")[0] === typeExtension[0]) { parameterType =
parameterType.replace(typeExtension[0], typeExtension[1]); } }`. -/
def applyTypeExtensions (typeExtensions : List (String × String)) (t : String) : String :=
  typeExtensions.foldl
    (fun ty ext => if beforeLBracket ty = ext.1 then replaceFirst ty ext.1 ext.2 else ty)
    t

/-- Body of the `for (const i in parameterTypes)` loop of
`getParameterTypesFromMethodDeclaration`: trim, split on spaces, skip
modifier-like tokens, apply the type extensions and rewrite `...` to `[]`. -/
def processParameterType (typeExtensions : List (String × String)) (param : String) :
    Option String := do
  let parameterParts := jsSplit (jsTrim param) " "
  let t ← stripModifierTokens (beforeLt (parameterParts.headD "")) (parameterParts.drop 1)
  pure (replaceFirst (applyTypeExtensions typeExtensions t) "..." "[]")

/-- `getParameterTypesFromMethodDeclaration` (`javaCodeHandler.ts`, 142-162):
take the text between the first `(` and the following `)`, split it on commas
(an empty first component empties the whole list), and process each parameter.
A declaration without `(` indexes `undefined` and throws in JS (`none`). -/
def getParameterTypesFromMethodDeclaration (methodDeclaration : String)
    (typeExtensions : List (String × String)) : Option (List String) :=
  match jsSplit methodDeclaration "(" with
  | _ :: afterParen :: _ =>
    let parameterTypes := jsSplit ((jsSplit afterParen ")").headD "") ","
    let parameterTypes := if parameterTypes.headD "" = "" then [] else parameterTypes
    parameterTypes.mapM (processParameterType typeExtensions)
  | _ => none

/-! ## Embedded regex engine

The three regexes of `javaCodeHandler.ts` are embedded as executable
backtracking matchers over `List Char`, following JS semantics: leftmost
match, alternatives tried left to right, greedy quantifiers try the longest
extent first, `m` makes `^` match after every newline, `g` resumes scanning
at the end of the previous match.  A matcher maps a start position to the
list of possible end positions in backtracking-preference order. -/

/-- Matcher: candidate end positions (preference order) from a start position. -/
abbrev RegexPat := List Char → Nat → List Nat

/-- JS `\w`: `[A-Za-z0-9_]`. -/
def jsWordChar (c : Char) : Bool :=
  ('A' ≤ c && c ≤ 'Z') || ('a' ≤ c && c ≤ 'z') || ('0' ≤ c && c ≤ '9') || c == '_'

/-- First character of `[A-Za-z_$][A-Za-z0-9_]*`. -/
def identStartChar (c : Char) : Bool :=
  ('A' ≤ c && c ≤ 'Z') || ('a' ≤ c && c ≤ 'z') || c == '_' || c == '$'

/-- Continuation character `[A-Za-z0-9_]`. -/
def identInnerChar (c : Char) : Bool :=
  ('A' ≤ c && c ≤ 'Z') || ('a' ≤ c && c ≤ 'z') || ('0' ≤ c && c ≤ '9') || c == '_'

/-- JS `\s` (restricted to the ASCII whitespace the sources can contain). -/
def jsSpaceChar (c : Char) : Bool :=
  c == ' ' || c == '\t' || c == '\n' || c == '\r' || c == '\x0b' || c == '\x0c'

/-- JS `.`: any character except a line terminator. -/
def dotChar (c : Char) : Bool :=
  c != '\n' && c != '\r'

/-- Character class of the return-type atom `[\w\<\>\[\]\?]`. -/
def returnTypeChar (c : Char) : Bool :=
  jsWordChar c || c == '<' || c == '>' || c == '[' || c == ']' || c == '?'

/-- Literal string atom. -/
def litPat (w : List Char) : RegexPat := fun cs i =>
  if w.isPrefixOf (cs.drop i) then [i + w.length] else []

/-- Single literal character atom. -/
def charPat (c : Char) : RegexPat := fun cs i =>
  if cs[i]? == some c then [i + 1] else []

/-- Single character-class atom. -/
def clsPat (f : Char → Bool) : RegexPat := fun cs i =>
  match cs[i]? with
  | some c => if f c then [i + 1] else []
  | none => []

/-- Alternation `a|b|...`, tried left to right. -/
def altPat (ps : List RegexPat) : RegexPat := fun cs i =>
  ps.flatMap (fun p => p cs i)

/-- Sequencing. -/
def seqPat (p q : RegexPat) : RegexPat := fun cs i =>
  (p cs i).flatMap (q cs)

/-- Greedy option `(...)?`: try the match first, then the empty alternative. -/
def optPat (p : RegexPat) : RegexPat := fun cs i =>
  p cs i ++ [i]

/-- Greedy star over an arbitrary sub-matcher, fuelled for termination; only
advancing repetitions are taken (a regex engine never repeats an empty
match). -/
def starPatFuel (p : RegexPat) : Nat → RegexPat
  | 0 => fun _ i => [i]
  | n + 1 => fun cs i =>
    ((p cs i).filter (fun j => i < j)).flatMap (starPatFuel p n cs) ++ [i]

/-- Greedy `(...)*`. -/
def starPat (p : RegexPat) : RegexPat := fun cs i =>
  starPatFuel p (cs.length + 1) cs i

/-- Number of consecutive characters satisfying `f`. -/
def countWhile (f : Char → Bool) : List Char → Nat
  | [] => 0
  | c :: rest => if f c then countWhile f rest + 1 else 0

/-- Greedy `[class]*`: longest first, down to the empty repetition. -/
def clsStarPat (f : Char → Bool) : RegexPat := fun cs i =>
  let k := countWhile f (cs.drop i)
  (List.range (k + 1)).reverse.map (fun d => i + d)

/-- Greedy `[class]+`: longest first, at least one character. -/
def clsPlusPat (f : Char → Bool) : RegexPat := fun cs i =>
  let k := countWhile f (cs.drop i)
  (List.range k).reverse.map (fun d => i + d + 1)

/-- Extract the substring spanning positions `[a, b)`. -/
def sliceString (cs : List Char) (a b : Nat) : String :=
  String.mk ((cs.drop a).take (b - a))

/-- Does the text end with `w` exactly at position `j`? -/
def textEndsWith (cs : List Char) (j : Nat) (w : String) : Bool :=
  let wl := w.toList
  decide (wl.length ≤ j) && wl.isPrefixOf (cs.drop (j - wl.length))

/-- `^` with the `m` flag: position 0 or right after a line terminator. -/
def isLineStart (cs : List Char) (q : Nat) : Bool :=
  match q with
  | 0 => true
  | r + 1 => cs[r]? == some '\n' || cs[r]? == some '\r'

/-- Is `l` a complete `[A-Za-z_$][A-Za-z0-9_]*` token? -/
def identTokenAll (l : List Char) : Bool :=
  match l with
  | [] => false
  | c :: r => identStartChar c && r.all identInnerChar

/-- `(?:public|protected|private|return) [A-Za-z_$][A-Za-z0-9_]*` ending at
`j`: some non-empty identifier suffix, preceded by a space, preceded by one
of the keywords. -/
def declKwIdentSuffix (cs : List Char) (j : Nat) : Bool :=
  ["public", "protected", "private", "return"].any (fun kw =>
    (List.range j).any (fun d =>
      let k := d + 1
      decide (k ≤ j) && identTokenAll ((cs.drop (j - k)).take k) &&
        textEndsWith cs (j - k) (kw ++ " ")))

/-- The negative lookbehind of the method-declaration regex
`(?<!if|switch|while|for|(?:public|protected|private|return) [A-Za-z_$][A-Za-z0-9_]*)`,
evaluated at the position `j` just after the captured method name. -/
def declLookbehindRejects (cs : List Char) (j : Nat) : Bool :=
  textEndsWith cs j "if" || textEndsWith cs j "switch" ||
  textEndsWith cs j "while" || textEndsWith cs j "for" ||
  declKwIdentSuffix cs j

/-- The modifier/whitespace atoms of `(?:public|...|transient|\t| )*`. -/
def modifierTokenPats : List RegexPat :=
  javaModifiers.map (fun w => litPat w.toList) ++ [charPat '\t', charPat ' ']

/-- The leading `(?:public|...|transient|\t| )*` of the declaration and class
regexes. -/
def declHeadPat : RegexPat := starPat (altPat modifierTokenPats)

/-- `(?:\<.*\>\s+)?`. -/
def genericArgsPat : RegexPat :=
  optPat (seqPat (charPat '<')
    (seqPat (clsStarPat dotChar) (seqPat (charPat '>') (clsPlusPat jsSpaceChar))))

/-- `\([^\)]*\)`. -/
def parenGroupPat : RegexPat :=
  seqPat (charPat '(') (seqPat (clsStarPat (fun c => c != ')')) (charPat ')'))

/-- `[A-Za-z_$][A-Za-z0-9_]*`. -/
def identPat : RegexPat :=
  seqPat (clsPat identStartChar) (clsStarPat identInnerChar)

/-- All ways the method-declaration regex can match starting at `s` (`s` must
be a line start), as `(nameStart, nameEnd, matchEnd)` in preference order. -/
def declCandidatesFrom (cs : List Char) (s : Nat) : List (Nat × Nat × Nat) :=
  (declHeadPat cs s).flatMap fun p1 =>
  (genericArgsPat cs p1).flatMap fun p2 =>
  (clsPlusPat returnTypeChar cs p2).flatMap fun p3 =>
  (clsPlusPat jsSpaceChar cs p3).flatMap fun p4 =>
  (identPat cs p4).flatMap fun p5 =>
  if declLookbehindRejects cs p5 then []
  else (parenGroupPat cs p5).map fun p6 => (p4, p5, p6)

/-- Leftmost match of the method-declaration regex at scan position ≥ `pos`:
`(start, nameStart, nameEnd, matchEnd)`. -/
def firstDeclMatchFrom (cs : List Char) (pos : Nat) : Option (Nat × Nat × Nat × Nat) :=
  ((List.range (cs.length + 1)).filter (fun q => decide (pos ≤ q) && isLineStart cs q)).findSome?
    (fun q =>
      match declCandidatesFrom cs q with
      | [] => none
      | (ns, ne, e) :: _ => some (q, ns, ne, e))

/-- The `g`-flag scan of the method-declaration regex (fuelled). -/
def allDeclMatchesAux (cs : List Char) : Nat → Nat → List (Nat × Nat × Nat × Nat)
  | 0, _ => []
  | fuel + 1, pos =>
    match firstDeclMatchFrom cs pos with
    | none => []
    | some (s, ns, ne, e) =>
      (s, ns, ne, e) :: allDeclMatchesAux cs fuel (if pos < e then e else pos + 1)

/-- All matches of `methodDeclarationRegex` in scan order. -/
def allDeclMatches (cs : List Char) : List (Nat × Nat × Nat × Nat) :=
  allDeclMatchesAux cs (cs.length + 1) 0

/-- `value.replace(methodDeclarationRegex, "")`: drop every matched span. -/
def replaceDecls (v : String) : String :=
  let cs := v.toList
  let spans := (allDeclMatches cs).map (fun m => (m.1, m.2.2.2))
  String.mk ((cs.enum.filter
    (fun p => !(spans.any (fun sp => decide (sp.1 ≤ p.1) && decide (p.1 < sp.2))))).map
    (fun p => p.2))

/-! ### The class regex `classRegex` -/

/-- The lazy optional capture `(?:\<(.*?)\>)?` of the class regex: shortest
capture first; `none` stands for the skipped optional group. -/
def lazyGenericCapture (cs : List Char) (p : Nat) : List (Option (Nat × Nat) × Nat) :=
  if cs[p]? == some '<' then
    (List.range cs.length).filterMap (fun k =>
      if ((List.range k).all (fun d =>
            match cs[p + 1 + d]? with
            | some c => dotChar c
            | none => false)) && cs[p + 1 + k]? == some '>'
      then some (some (p + 1, p + 1 + k), p + 2 + k)
      else none)
  else []

/-- All ways the class regex can match starting at `s`, as
`(capture, matchEnd)` in preference order. -/
def classCandidatesFrom (cs : List Char) (s : Nat) : List (Option (Nat × Nat) × Nat) :=
  (declHeadPat cs s).flatMap fun p1 =>
  (litPat "class".toList cs p1).flatMap fun p2 =>
  (clsPat jsSpaceChar cs p2).flatMap fun p3 =>
  (identPat cs p3).flatMap fun p4 =>
  lazyGenericCapture cs p4 ++ [(none, p4)]

/-- Leftmost match of the class regex at scan position ≥ `pos`. -/
def firstClassMatchFrom (cs : List Char) (pos : Nat) : Option (Nat × Option (Nat × Nat) × Nat) :=
  ((List.range (cs.length + 1)).filter (fun q => decide (pos ≤ q) && isLineStart cs q)).findSome?
    (fun q =>
      match classCandidatesFrom cs q with
      | [] => none
      | (cap, e) :: _ => some (q, cap, e))

/-- The `g`-flag scan of the class regex (fuelled). -/
def allClassMatchesAux (cs : List Char) : Nat → Nat → List (Nat × Option (Nat × Nat) × Nat)
  | 0, _ => []
  | fuel + 1, pos =>
    match firstClassMatchFrom cs pos with
    | none => []
    | some (s, cap, e) =>
      (s, cap, e) :: allClassMatchesAux cs fuel (if pos < e then e else pos + 1)

/-- All matches of `classRegex` in scan order. -/
def allClassMatches (cs : List Char) : List (Nat × Option (Nat × Nat) × Nat) :=
  allClassMatchesAux cs (cs.length + 1) 0

/-- `getGenericTypeExtensions` (`javaCodeHandler.ts`, 166-182): for every
class-regex match with a truthy generic capture, split the capture on commas
and record every `X extends Y` component as `X → Y`. -/
def getGenericTypeExtensions (documentText : String) : List (String × String) :=
  let cs := documentText.toList
  (allClassMatches cs).foldl
    (fun acc m =>
      match m.2.1 with
      | none => acc
      | some (a, b) =>
        let captured := sliceString cs a b
        if captured = "" then acc
        else
          (jsSplit captured ",").foldl
            (fun acc2 ext =>
              let extensionParts := jsSplit (jsTrim ext) " "
              if extensionParts.length = 3 && extensionParts.getD 1 "" = "extends" then
                mapSet acc2 (extensionParts.getD 0 "") (extensionParts.getD 2 "")
              else acc2)
            acc)
    []

/-! ### The occurrence regex `significantCodeChangeRegex` -/

/-- The leading negative lookbehind `(?<!\/\/.*)`: rejects when a `//` occurs
earlier on the same line as the match start. -/
def commentLookbehindRejects (cs : List Char) (s : Nat) : Bool :=
  (List.range s).any (fun q =>
    decide (q + 2 ≤ s) && cs[q]? == some '/' && cs[q + 1]? == some '/' &&
      (List.range (s - (q + 2))).all (fun d =>
        match cs[q + 2 + d]? with
        | some c => dotChar c
        | none => false))

/-- The inner negative lookbehind `(?<!\W+(if|switch))` after the identifier:
rejects when the text ending at `j` is `if`/`switch` preceded by at least one
non-word character. -/
def identLookbehindRejects (cs : List Char) (j : Nat) : Bool :=
  (decide (3 ≤ j) && textEndsWith cs j "if" &&
    (match cs[j - 3]? with
     | some c => !jsWordChar c
     | none => false)) ||
  (decide (7 ≤ j) && textEndsWith cs j "switch" &&
    (match cs[j - 7]? with
     | some c => !jsWordChar c
     | none => false))

/-- `while *\([^\)]*\)` / `for *\([^\)]*\)`. -/
def loopAltPat (kw : String) : RegexPat :=
  seqPat (litPat kw.toList) (seqPat (clsStarPat (fun c => c == ' ')) parenGroupPat)

/-- `[A-Za-z_$][A-Za-z0-9_]*(?<!\W+(if|switch))\([^\)]*\)`. -/
def identAltEnds (cs : List Char) (s : Nat) : List Nat :=
  (identPat cs s).flatMap fun j =>
    if identLookbehindRejects cs j then [] else parenGroupPat cs j

/-- All candidate end positions of the occurrence regex at start `s`, in
alternation order (`while`, `for`, call-like). -/
def occCandidatesAt (cs : List Char) (s : Nat) : List Nat :=
  if commentLookbehindRejects cs s then []
  else loopAltPat "while" cs s ++ loopAltPat "for" cs s ++ identAltEnds cs s

/-- Leftmost occurrence-regex match at scan position ≥ `pos`. -/
def firstOccMatchFrom (cs : List Char) (pos : Nat) : Option (Nat × Nat) :=
  ((List.range (cs.length + 1)).filter (fun q => decide (pos ≤ q))).findSome?
    (fun q =>
      match occCandidatesAt cs q with
      | [] => none
      | e :: _ => some (q, e))

/-- The `g`-flag scan of the occurrence regex (fuelled). -/
def allOccMatchesAux (cs : List Char) : Nat → Nat → List (Nat × Nat)
  | 0, _ => []
  | fuel + 1, pos =>
    match firstOccMatchFrom cs pos with
    | none => []
    | some (s, e) => (s, e) :: allOccMatchesAux cs fuel (if pos < e then e else pos + 1)

/-- `value.match(significantCodeChangeRegex)`: the list of matched fragments
(`[]` embeds JS `null`). -/
def allOccMatches (v : String) : List String :=
  let cs := v.toList
  (allOccMatchesAux cs (cs.length + 1) 0).map (fun m => sliceString cs m.1 m.2)

/-! ## Diff engine (external collaborator) -/

/-- One segment of a line diff (`LineDiff`): its text and whether it was
added or removed (neither flag set means unchanged). -/
structure LineDiff where
  value : String
  added : Bool
  removed : Bool
deriving DecidableEq

/-- Line tokens of a text, each keeping its trailing newline (the
tokenization used by line-based diffing; a trailing empty token is
dropped). -/
def linesOf (s : String) : List String :=
  let parts := jsSplit s "\n"
  let n := parts.length
  (parts.enum.filterMap (fun p =>
    if p.1 + 1 < n then some (p.2 ++ "\n")
    else if p.2 = "" then none
    else some p.2))

/-- Longest common subsequence of two token lists (fuelled structural
recursion; the fuel below always suffices). -/
def lcsFuel : Nat → List String → List String → List String
  | 0, _, _ => []
  | _, [], _ => []
  | _, _, [] => []
  | fuel + 1, a :: as, b :: bs =>
    if a = b then a :: lcsFuel fuel as bs
    else
      let l1 := lcsFuel fuel (a :: as) bs
      let l2 := lcsFuel fuel as (b :: bs)
      if l2.length ≥ l1.length then l2 else l1

/-- Longest common subsequence of two token lists. -/
def lcs (o n : List String) : List String :=
  lcsFuel (o.length + n.length) o n

/-- Per-line diff operation. -/
inductive DiffOp
  | keep (s : String)
  | del (s : String)
  | ins (s : String)
deriving DecidableEq

/-- Produce per-line operations from the two sides and their common
subsequence: within a hunk all removals precede all insertions. -/
def diffOps : Nat → List String → List String → List String → List DiffOp
  | 0, _, _, _ => []
  | _ + 1, o, n, [] => o.map DiffOp.del ++ n.map DiffOp.ins
  | fuel + 1, o, n, x :: crest =>
    match o, n with
    | [], _ => diffOps fuel [] n []
    | _, [] => diffOps fuel o [] []
    | oh :: orest, nh :: nrest =>
      if oh = x then
        if nh = x then DiffOp.keep x :: diffOps fuel orest nrest crest
        else DiffOp.ins nh :: diffOps fuel o nrest (x :: crest)
      else DiffOp.del oh :: diffOps fuel orest n (x :: crest)

/-- Merge runs of equally-flagged line operations into diff segments. -/
def mergeOps : List DiffOp → List LineDiff
  | [] => []
  | op :: rest =>
    let merged := mergeOps rest
    match op, merged with
    | DiffOp.keep s, ⟨v, false, false⟩ :: tail => ⟨s ++ v, false, false⟩ :: tail
    | DiffOp.del s, ⟨v, false, true⟩ :: tail => ⟨s ++ v, false, true⟩ :: tail
    | DiffOp.ins s, ⟨v, true, false⟩ :: tail => ⟨s ++ v, true, false⟩ :: tail
    | DiffOp.keep s, tail => ⟨s, false, false⟩ :: tail
    | DiffOp.del s, tail => ⟨s, false, true⟩ :: tail
    | DiffOp.ins s, tail => ⟨s, true, false⟩ :: tail

/-- Modelled from the spec: `Diff.diffLines` of the external `diff` npm
library, the Diff-provider collaborator of §6 — an ordered sequence of
segments, each a text with one of the three states added/removed/unchanged,
in top-to-bottom reading order with the removals of a hunk before its
additions; unchanged lines are common to both inputs, added/removed lines
belong to one side only. -/
def diffLines (oldText newText : String) : List LineDiff :=
  let o := linesOf oldText
  let n := linesOf newText
  mergeOps (diffOps (o.length + n.length + 1) o n (lcs o n))

/-! ## Significance Classifier (`significantCodeChangeCheck`) -/

/-- `match.split("(")[0].trim()`: the leading name token of an occurrence. -/
def methodNameOfOccurrence (m : String) : String :=
  jsTrim (splitHead m "(")

/-- The per-occurrence significance test of line 107:
`!methodWhitelist.includes(methodName) && (nonConstantMethods.includes(methodName)
|| ["while", "for"].includes(methodName))`. -/
def occurrenceSignificant (methodWhitelist nonConstantMethods : List String)
    (m : String) : Bool :=
  let methodName := methodNameOfOccurrence m
  !methodWhitelist.contains methodName &&
    (nonConstantMethods.contains methodName || ["while", "for"].contains methodName)

/-- Record an occurrence under its containing method (lines 108-116):
append it to the existing cause list unless already present. -/
def insertCause (causeMap : List (String × List String)) (containing m : String) :
    List (String × List String) :=
  match mapGet causeMap containing with
  | some causeMethods =>
    if causeMethods.contains m then causeMap
    else mapSet causeMap containing (causeMethods ++ [m])
  | none => mapSet causeMap containing [m]

/-- Scan a text with the declaration regex, keeping the identity
`name(paramTypes)` of the *last* match (the `while ((declarationMatches =
regex.exec(...)) !== null)` loops); parameter extraction can throw (`none`). -/
def lastDeclKey (typeExtensions : List (String × String)) (v : String)
    (containing : String) : Option String :=
  let cs := v.toList
  (allDeclMatches cs).foldlM
    (fun _ m => do
      let full := sliceString cs m.1 m.2.2.2
      let name := sliceString cs m.2.1 m.2.2.1
      let parameterTypes ← getParameterTypesFromMethodDeclaration full typeExtensions
      pure (name ++ "(" ++ String.intercalate "," parameterTypes ++ ")"))
    containing

/-- Lines 88-97: determine the enclosing method by scanning all diff
segments preceding the current one, in order. -/
def scanContaining (typeExtensions : List (String × String)) (parts : List LineDiff) :
    Option String :=
  parts.foldlM (fun cur part => lastDeclKey typeExtensions part.value cur) ""

/-- The `for (const match of matches)` loop (lines 98-119), threading the
containing method, the significance flag and the cause map. -/
def processMatches (methodWhitelist nonConstantMethods : List String)
    (typeExtensions : List (String × String)) (partValue : String)
    (containing : String) (acc : Bool × List (String × List String)) :
    List String → Option (String × Bool × List (String × List String))
  | [] => some (containing, acc)
  | m :: ms => do
    let beforeMatch := splitHead partValue m
    let containing ← lastDeclKey typeExtensions beforeMatch containing
    let acc :=
      if occurrenceSignificant methodWhitelist nonConstantMethods m then
        (true, insertCause acc.2 containing m)
      else acc
    processMatches methodWhitelist nonConstantMethods typeExtensions partValue containing acc ms

/-- The outer `for (let diffTextPartIndex in diffText)` loop (lines 82-122):
`processed` holds the segments before the current one. -/
def classifyParts (methodWhitelist nonConstantMethods : List String)
    (typeExtensions : List (String × String)) :
    List LineDiff → List LineDiff → Bool × List (String × List String) →
    Option (Bool × List (String × List String))
  | _, [], acc => some acc
  | processed, part :: rest, acc => do
    let acc' ←
      if part.added || part.removed then
        let ms := allOccMatches (replaceDecls part.value)
        if ms.isEmpty then some acc
        else do
          let containing ← scanContaining typeExtensions processed
          let r ← processMatches methodWhitelist nonConstantMethods typeExtensions
            part.value containing acc ms
          some r.2
      else some acc
    classifyParts methodWhitelist nonConstantMethods typeExtensions
      (processed ++ [part]) rest acc'

/-- Lines 77-122 of `significantCodeChangeCheck`: diff the two texts and
classify, returning the significance flag and the containing-method →
cause-expressions map. -/
def classifyDiff (methodWhitelist nonConstantMethods : List String)
    (previousText savedText : String) : Option (Bool × List (String × List String)) :=
  let typeExtensions := getGenericTypeExtensions previousText
  let diffText := diffLines previousText savedText
  classifyParts methodWhitelist nonConstantMethods typeExtensions [] diffText (false, [])

/-- `${inferCostItem.method_name}(${inferCostItem.parameterTypes.join(",")})`. -/
def costItemKey (item : InferCostItem) : String :=
  item.method_name ++ "(" ++ String.intercalate "," item.parameterTypes ++ ")"

/-- Lines 124-132: overwrite every current cost entry's `changeCauseMethods`
with the cause-map entry for its identity (possibly absent), and do the same
to the head of that id's history; an empty stored history indexes
`undefined` and throws in JS (`none`). -/
def attributionPass (causeMap : List (String × List String))
    (hists : List (String × List InferCostItem)) :
    List InferCostItem → Option (List InferCostItem × List (String × List InferCostItem))
  | [] => some ([], hists)
  | item :: rest => do
    let causeMethods := mapGet causeMap (costItemKey item)
    let item' := { item with changeCauseMethods := causeMethods }
    let hists' ←
      match mapGet hists item.id with
      | none => some hists
      | some [] => none
      | some (h0 :: hrest) =>
        let h0' := { h0 with changeCauseMethods := causeMethods }
        some (mapSet (mapSet hists item.id (h0' :: hrest)) h0'.id (h0' :: hrest))
    let r ← attributionPass causeMap hists' rest
    pure (item' :: r.1, r.2)

/-- `significantCodeChangeCheck` (`javaCodeHandler.ts`, 73-137): fetch the
previous snapshot; the guard `if (!previousText) { return false; }` is a JS
*falsiness* test, so both an absent snapshot (`undefined`) and a stored
empty-string snapshot return `false` untouched, before the attribution loop
and before the event fires.  Otherwise classify the diff, attribute causes
onto the current cost list and history heads, store the cost list under the
active file, fire the `significantCodeChange` event and return the
significance flag.  The whitelist is the configuration value read on
entry. -/
def significantCodeChangeCheck (methodWhitelist : List String) (savedText : String)
    (st : ExtensionState) : Option (Bool × ExtensionState) :=
  match mapGet st.savedDocumentTexts st.activeFileName with
  | none => some (false, st)
  | some previousText =>
    if previousText = "" then some (false, st)
    else do
      let r ← classifyDiff methodWhitelist st.nonConstantMethods previousText savedText
      let a ← attributionPass r.2 st.inferCostHistories st.currentInferCost
      pure (r.1,
        { st with
          currentInferCost := a.1,
          inferCostHistories := a.2,
          inferCosts := mapSet st.inferCosts st.activeFileName a.1,
          significantCodeChangeFireCount := st.significantCodeChangeFireCount + 1 })

/-! ## Cost-History Tracker (`updateInferCostHistory`) -/

/-- Condition of the history tracker step: update unless the history is
non-empty and its head entry's `exec_cost.polynomial` equals the new
entry's (`if ((costHistory.length > 0) && (costHistory[0].exec_cost.polynomial
=== inferCostItem.exec_cost.polynomial)) { continue; }`). -/
def historyNeedsUpdate (hists : List (String × List InferCostItem))
    (item : InferCostItem) : Bool :=
  match mapGetD hists item.id [] with
  | [] => true
  | h0 :: _ => h0.exec_cost.polynomial ≠ item.exec_cost.polynomial

/-- Effect of one tracker iteration on the history map: stamp the entry with
the current time and unshift it (insert at index 0) when an update is needed. -/
def histUpdateOne (currentTime : String) (hists : List (String × List InferCostItem))
    (item : InferCostItem) : List (String × List InferCostItem) :=
  if historyNeedsUpdate hists item then
    mapSet hists item.id ({ item with timestamp := some currentTime } :: mapGetD hists item.id [])
  else
    hists

/-- The tracker loop over the cost list; JS mutates `inferCostItem.timestamp`
in place before unshifting the same object, so the processed cost list is
returned alongside the history map. -/
def updateInferCostHistoryAux (currentTime : String) :
    List (String × List InferCostItem) → List InferCostItem →
    List InferCostItem × List (String × List InferCostItem)
  | hists, [] => ([], hists)
  | hists, item :: rest =>
    if historyNeedsUpdate hists item then
      let item' := { item with timestamp := some currentTime }
      let (rest', hists') := updateInferCostHistoryAux currentTime (histUpdateOne currentTime hists item) rest
      (item' :: rest', hists')
    else
      let (rest', hists') := updateInferCostHistoryAux currentTime hists rest
      (item :: rest', hists')

/-- `updateInferCostHistory` (`inferController.ts`): walk the current cost
list and prepend each entry whose execution polynomial differs from the head
of its history (or whose history is empty), stamped with the current time. -/
def updateInferCostHistory (currentTime : String) (st : ExtensionState) : ExtensionState :=
  let (cur', hists') := updateInferCostHistoryAux currentTime st.inferCostHistories st.currentInferCost
  { st with currentInferCost := cur', inferCostHistories := hists' }

/-! ## Specification-side definitions used to compare against the source -/

/-- The parameter-stripping step as the specification words it: drop leading
tokens that *are* modifier keywords, then take the declared type with any
generic-argument suffix (text after `<`) removed; nothing left is undefined. -/
def stripLeadingModifiersClaimed (tokens : List String) : Option String :=
  match tokens.dropWhile (fun t => javaModifiers.contains t) with
  | [] => none
  | t :: _ => some (beforeLt t)

/-- Per-parameter computation as the specification claims it. -/
def processParameterTypeClaimed (typeExtensions : List (String × String)) (param : String) :
    Option String := do
  let parameterParts := jsSplit (jsTrim param) " "
  let t ← stripLeadingModifiersClaimed parameterParts
  pure (replaceFirst (applyTypeExtensions typeExtensions t) "..." "[]")

/-- Whole-declaration extractor as the specification claims it (same
splitting as the source, claimed per-parameter computation). -/
def getParameterTypesClaimed (methodDeclaration : String)
    (typeExtensions : List (String × String)) : Option (List String) :=
  match jsSplit methodDeclaration "(" with
  | _ :: afterParen :: _ =>
    let parameterTypes := jsSplit ((jsSplit afterParen ")").headD "") ","
    let parameterTypes := if parameterTypes.headD "" = "" then [] else parameterTypes
    parameterTypes.mapM (processParameterTypeClaimed typeExtensions)
  | _ => none

/-- Amended parameter-stripping: drop leading tokens (each taken up to `<`)
that *contain* a modifier keyword as a substring. -/
def stripLeadingModifiersAmended (tokens : List String) : Option String :=
  match tokens.dropWhile (fun t => containsModifier (beforeLt t)) with
  | [] => none
  | t :: _ => some (beforeLt t)

/-- Per-parameter computation as amended. -/
def processParameterTypeAmended (typeExtensions : List (String × String)) (param : String) :
    Option String := do
  let parameterParts := jsSplit (jsTrim param) " "
  let t ← stripLeadingModifiersAmended parameterParts
  pure (replaceFirst (applyTypeExtensions typeExtensions t) "..." "[]")

/-- Whole-declaration extractor as amended. -/
def getParameterTypesAmended (methodDeclaration : String)
    (typeExtensions : List (String × String)) : Option (List String) :=
  match jsSplit methodDeclaration "(" with
  | _ :: afterParen :: _ =>
    let parameterTypes := jsSplit ((jsSplit afterParen ")").headD "") ","
    let parameterTypes := if parameterTypes.headD "" = "" then [] else parameterTypes
    parameterTypes.mapM (processParameterTypeAmended typeExtensions)
  | _ => none

/-! ## Concrete states used by witnesses and counterexamples -/

/-- A state with no saved snapshot for the active file. -/
def noSnapshotState : ExtensionState :=
  { activeFileName := "Test.java"
    savedDocumentTexts := []
    nonConstantMethods := []
    currentInferCost := []
    inferCosts := []
    inferCostHistories := []
    significantCodeChangeFireCount := 0 }

/-- Scenario A/B state: the previous snapshot of the active file is
`void foo(int x) { bar(); }` and `baz` is in the Non-Constant Registry. -/
def scenarioState : ExtensionState :=
  { activeFileName := "Test.java"
    savedDocumentTexts := [("Test.java", "void foo(int x) { bar(); }")]
    nonConstantMethods := ["baz"]
    currentInferCost := []
    inferCosts := []
    inferCostHistories := []
    significantCodeChangeFireCount := 0 }

/-- The state `scenarioState` evolves to under scenario A's call. -/
def scenarioStateAfter : ExtensionState :=
  { scenarioState with
    inferCosts := [("Test.java", [])]
    significantCodeChangeFireCount := 1 }

/-- A state whose previous snapshot is `int x;\n` (no loop yet) with the
loop keyword `for` on the method whitelist passed separately. -/
def loopState : ExtensionState :=
  { activeFileName := "Test.java"
    savedDocumentTexts := [("Test.java", "int x;\n")]
    nonConstantMethods := []
    currentInferCost := []
    inferCosts := []
    inferCostHistories := []
    significantCodeChangeFireCount := 0 }

/-- The state `loopState` evolves to when the check runs. -/
def loopStateAfter : ExtensionState :=
  { loopState with
    inferCosts := [("Test.java", [])]
    significantCodeChangeFireCount := 1 }

/-- The new text of the loop scenarios: a `for` loop is added. -/
def loopSavedText : String := "int x;\nfor (int i=0;i<n;i++)"

/-- A cost entry for a method named `gone` (O(1) costs). -/
def goneCostItem : InferCostItem :=
  { id := "Test.java:gone"
    method_name := "gone"
    parameterTypes := []
    loc := { file := "Test.java", lnum := 1 }
    alloc_cost := { polynomial := "1", degree := 0, big_o := "O(1)" }
    exec_cost := { polynomial := "1", degree := 0, big_o := "O(1)" } }

/-- Registry `["keep", "gone"]` with a current cost list naming only `gone`. -/
def registryState : ExtensionState :=
  { noSnapshotState with
    nonConstantMethods := ["keep", "gone"]
    currentInferCost := [goneCostItem] }

/-- A cost entry with linear execution cost, used for history-tracker runs. -/
def linearCostItem : InferCostItem :=
  { id := "Test.java:x"
    method_name := "x"
    parameterTypes := []
    loc := { file := "Test.java", lnum := 3 }
    alloc_cost := { polynomial := "1", degree := 0, big_o := "O(1)" }
    exec_cost := { polynomial := "n", degree := 1, big_o := "O(n)" } }

/-- `linearCostItem` carrying a stale cause attribution. -/
def attributedCostItem : InferCostItem :=
  { linearCostItem with changeCauseMethods := some ["oldCause()"] }

/-- A state whose current cost entry and history head carry a stale
attribution; the next (unchanged-text) check must clear both. -/
def registryHistoryState : ExtensionState :=
  { activeFileName := "Test.java"
    savedDocumentTexts := [("Test.java", "int y;\n")]
    nonConstantMethods := []
    currentInferCost := [attributedCostItem]
    inferCosts := []
    inferCostHistories := [("Test.java:x", [attributedCostItem])]
    significantCodeChangeFireCount := 0 }

/-- The state `registryHistoryState` evolves to: both attributions cleared. -/
def registryHistoryStateAfter : ExtensionState :=
  { registryHistoryState with
    currentInferCost := [linearCostItem]
    inferCosts := [("Test.java", [linearCostItem])]
    inferCostHistories := [("Test.java:x", [linearCostItem])]
    significantCodeChangeFireCount := 1 }

/-! # Theorems -/

/-! ## Association-map lemmas -/

theorem mapGet_mapSet_self {α : Type} (m : List (String × α)) (k : String) (v : α) :
    mapGet (mapSet m k v) k = some v := by
  induction m with
  | nil => simp [mapGet, mapSet]
  | cons p rest ih =>
    by_cases hpk : p.1 = k
    · simp [mapGet, mapSet, hpk]
    · simp [mapGet, mapSet, hpk, ih]

theorem mapGet_mapSet_ne {α : Type} (m : List (String × α)) (k k' : String) (v : α)
    (h : k ≠ k') : mapGet (mapSet m k v) k' = mapGet m k' := by
  induction m with
  | nil => simp [mapGet, mapSet, h]
  | cons p rest ih =>
    by_cases hpk : p.1 = k
    · subst hpk
      have hne : ¬(p.1 = k') := h
      simp [mapGet, mapSet, hne]
    · simp [mapGet, mapSet, hpk, ih]

/-! ## C4: missing previous snapshot -/

/-- C4: when no previous text snapshot exists for the active file,
`significantCodeChangeCheck` returns `false` immediately and leaves the
whole shared state unchanged. -/
theorem significantCodeChangeCheck_no_previous_snapshot
    (methodWhitelist : List String) (savedText : String) (st : ExtensionState)
    (h : mapGet st.savedDocumentTexts st.activeFileName = none) :
    significantCodeChangeCheck methodWhitelist savedText st = some (false, st) := by
  unfold significantCodeChangeCheck
  rw [h]

theorem significantCodeChangeCheck_no_previous_snapshot_witness :
    mapGet noSnapshotState.savedDocumentTexts noSnapshotState.activeFileName = none ∧
    significantCodeChangeCheck [] "class A {}" noSnapshotState = some (false, noSnapshotState) :=
  ⟨by decide,
    significantCodeChangeCheck_no_previous_snapshot [] "class A {}" noSnapshotState (by decide)⟩

/-- The line-75 guard is a JS falsiness test: a *stored empty-string*
snapshot is falsy just like an absent one, so the call returns `false` with
the whole shared state untouched (no attribution, no fire). -/
theorem significantCodeChangeCheck_empty_snapshot
    (methodWhitelist : List String) (savedText : String) (st : ExtensionState)
    (h : mapGet st.savedDocumentTexts st.activeFileName = some "") :
    significantCodeChangeCheck methodWhitelist savedText st = some (false, st) := by
  unfold significantCodeChangeCheck
  rw [h]
  simp

/-! ## C7: empty parameter list -/

theorem jsSplit_empty_comma : jsSplit "" "," = [""] := by decide

/-- C7: a method declaration whose parenthesized parameter list is empty
yields the empty parameter-type sequence `[]`, never `[""]`. -/
theorem getParameterTypesFromMethodDeclaration_empty_params
    (typeExtensions : List (String × String)) (decl d0 d1 : String) (drest : List String)
    (hsplit : jsSplit decl "(" = d0 :: d1 :: drest)
    (hinner : (jsSplit d1 ")").headD "" = "") :
    getParameterTypesFromMethodDeclaration decl typeExtensions = some [] := by
  have hinner2 : (jsSplit d1 ")").head?.getD "" = "" := by
    simpa [List.headD_eq_head?_getD] using hinner
  simp [getParameterTypesFromMethodDeclaration, hsplit, hinner2, jsSplit_empty_comma,
    List.mapM, List.mapM.loop]

theorem getParameterTypesFromMethodDeclaration_empty_params_witness :
    jsSplit "void foo()" "(" = ["void foo", ")"] ∧
    getParameterTypesFromMethodDeclaration "void foo()" [] = some [] :=
  ⟨by decide,
    getParameterTypesFromMethodDeclaration_empty_params [] "void foo()" "void foo" ")" []
      (by decide) (by decide)⟩

/-! ## C8: per-parameter type computation -/

theorem splitOnListFuel_ne_nil (sep : List Char) (fuel : Nat) (cs : List Char) :
    splitOnListFuel sep fuel cs ≠ [] := by
  cases fuel with
  | zero => simp [splitOnListFuel]
  | succ f =>
    unfold splitOnListFuel
    cases findSubIdx sep cs <;> simp

theorem jsSplit_ne_nil (s sep : String) (h : ¬(sep = "")) : jsSplit s sep ≠ [] := by
  unfold jsSplit
  rw [if_neg h]
  intro hcon
  exact splitOnListFuel_ne_nil sep.toList (s.toList.length + 1) s.toList
    (List.map_eq_nil_iff.mp hcon)

theorem stripModifierTokens_eq_amended :
    ∀ (ts : List String) (t : String),
      stripModifierTokens (beforeLt t) ts = stripLeadingModifiersAmended (t :: ts) := by
  intro ts
  induction ts with
  | nil =>
    intro t
    by_cases h : containsModifier (beforeLt t) <;>
      simp [stripModifierTokens, stripLeadingModifiersAmended, List.dropWhile, h]
  | cons u us ih =>
    intro t
    by_cases h : containsModifier (beforeLt t)
    · have : stripModifierTokens (beforeLt t) (u :: us) = stripModifierTokens (beforeLt u) us := by
        simp [stripModifierTokens, h]
      rw [this, ih u]
      simp [stripLeadingModifiersAmended, List.dropWhile, h]
    · simp [stripModifierTokens, stripLeadingModifiersAmended, List.dropWhile, h]

theorem processParameterType_eq_amended (typeExtensions : List (String × String))
    (param : String) :
    processParameterType typeExtensions param = processParameterTypeAmended typeExtensions param := by
  unfold processParameterType processParameterTypeAmended
  cases hp : jsSplit (jsTrim param) " " with
  | nil => exact absurd hp (jsSplit_ne_nil _ " " (by decide))
  | cons p ps =>
    simp [hp, stripModifierTokens_eq_amended ps p]

/-- C8 counterexample: the source treats any leading token *containing* a
modifier keyword as a modifier (the regex is unanchored), so the parameter
`staticA x` is typed `x` by the code, while the claimed algorithm (stripping
tokens that *are* modifiers) types it `staticA`. -/
theorem getParameterTypes_modifier_substring_counterexample :
    getParameterTypesFromMethodDeclaration "void foo(staticA x)" [] = some ["x"] ∧
    getParameterTypesClaimed "void foo(staticA x)" [] = some ["staticA"] ∧
    (some ["x"] : Option (List String)) ≠ some ["staticA"] :=
  ⟨by decide, by decide, by decide⟩

/-- C8 as amended: for every parameter of a matched declaration the source
computes its type by splitting the parameter list on commas, dropping leading
tokens that contain a modifier keyword as a substring, taking the declared
type with any generic-argument suffix removed, substituting the
TypeExtensionMap bound when the type (ignoring an array suffix) equals a map
key, and rewriting a `...` marker to `[]`. -/
theorem getParameterTypes_eq_amended (methodDeclaration : String)
    (typeExtensions : List (String × String)) :
    getParameterTypesFromMethodDeclaration methodDeclaration typeExtensions =
      getParameterTypesAmended methodDeclaration typeExtensions := by
  unfold getParameterTypesFromMethodDeclaration getParameterTypesAmended
  have hfun : processParameterType typeExtensions = processParameterTypeAmended typeExtensions :=
    funext (fun p => processParameterType_eq_amended typeExtensions p)
  rw [hfun]

/-! ## C9: registry reset operations -/

theorem mem_removeFirstOccurrence :
    ∀ {l : List String} {n y : String}, n ∈ l → n ≠ y → n ∈ removeFirstOccurrence l y := by
  intro l
  induction l with
  | nil => intro n y h _; cases h
  | cons x xs ih =>
    intro n y hn hne
    by_cases hx : x = y
    · rw [show removeFirstOccurrence (x :: xs) y = xs from by simp [removeFirstOccurrence, hx]]
      rcases List.mem_cons.mp hn with rfl | hmem
      · exact absurd hx hne
      · exact hmem
    · rw [show removeFirstOccurrence (x :: xs) y = x :: removeFirstOccurrence xs y from by
        simp [removeFirstOccurrence, hx]]
      rcases List.mem_cons.mp hn with rfl | hmem
      · exact List.mem_cons_self _ _
      · exact List.mem_cons_of_mem _ (ih hmem hne)

theorem mem_foldl_removeFirstOccurrence :
    ∀ (items : List InferCostItem) (ncm : List String) (n : String),
      n ∈ ncm → (∀ item ∈ items, item.method_name ≠ n) →
      n ∈ items.foldl (fun acc item => removeFirstOccurrence acc item.method_name) ncm := by
  intro items
  induction items with
  | nil => intro ncm n h _; simpa using h
  | cons it rest ih =>
    intro ncm n h hall
    simp only [List.foldl_cons]
    apply ih
    · exact mem_removeFirstOccurrence h
        (fun he => hall it (List.mem_cons_self _ _) he.symm)
    · intro item hm
      exact hall item (List.mem_cons_of_mem _ hm)

/-- C9: `resetNonConstantMethods` empties the registry entirely, while
`resetNonConstantMethodsForFile` keeps every registry name that is not the
`method_name` of some entry of the current cost list. -/
theorem nonConstantMethods_reset_and_frame :
    (∀ st : ExtensionState, (resetNonConstantMethods st).nonConstantMethods = []) ∧
    (∀ (st : ExtensionState) (n : String),
      n ∈ st.nonConstantMethods →
      (∀ item ∈ st.currentInferCost, item.method_name ≠ n) →
      n ∈ (resetNonConstantMethodsForFile st).nonConstantMethods) := by
  constructor
  · intro st; rfl
  · intro st n hmem hall
    exact mem_foldl_removeFirstOccurrence st.currentInferCost st.nonConstantMethods n hmem hall

/-! ## C3: cost-history growth -/

theorem updateInferCostHistoryAux_snd (t : String) :
    ∀ (items : List InferCostItem) (hs : List (String × List InferCostItem)),
      (updateInferCostHistoryAux t hs items).2 = items.foldl (histUpdateOne t) hs := by
  intro items
  induction items with
  | nil => intro hs; rfl
  | cons item rest ih =>
    intro hs
    by_cases h : historyNeedsUpdate hs item
    · simp [updateInferCostHistoryAux, h, histUpdateOne, ih]
    · simp [updateInferCostHistoryAux, h, histUpdateOne, ih]

theorem histUpdateOne_lookup_self (t : String) (hs : List (String × List InferCostItem))
    (item : InferCostItem) :
    mapGetD (histUpdateOne t hs item) item.id [] =
      (match mapGetD hs item.id [] with
       | [] => [{ item with timestamp := some t }]
       | h0 :: hrest =>
         if h0.exec_cost.polynomial = item.exec_cost.polynomial then h0 :: hrest
         else { item with timestamp := some t } :: h0 :: hrest) := by
  unfold histUpdateOne historyNeedsUpdate
  cases hh : mapGetD hs item.id [] with
  | nil => simp [hh, mapGetD, mapGet_mapSet_self]
  | cons h0 hrest =>
    by_cases hp : h0.exec_cost.polynomial = item.exec_cost.polynomial
    · simp [hh, hp]
    · simp [hh, hp, mapGetD, mapGet_mapSet_self]

theorem histUpdateOne_lookup_ne (t : String) (hs : List (String × List InferCostItem))
    (item : InferCostItem) (id : String) (h : id ≠ item.id) :
    mapGetD (histUpdateOne t hs item) id [] = mapGetD hs id [] := by
  unfold histUpdateOne
  by_cases hu : historyNeedsUpdate hs item
  · simp [hu, mapGetD, mapGet_mapSet_ne _ _ _ _ (Ne.symm h)]
  · simp [hu]

theorem histUpdateOne_growth (t : String) (hs : List (String × List InferCostItem))
    (item : InferCostItem) (id p : String) (n0 : Nat)
    (hitem : item.id = id → item.exec_cost.polynomial = p)
    (hlen : (mapGetD hs id []).length ≤ n0 + 1)
    (hdisj : (mapGetD hs id []).length ≤ n0 ∨
      ∃ h0 hrest, mapGetD hs id [] = h0 :: hrest ∧ h0.exec_cost.polynomial = p) :
    (mapGetD (histUpdateOne t hs item) id []).length ≤ n0 + 1 ∧
      ((mapGetD (histUpdateOne t hs item) id []).length ≤ n0 ∨
        ∃ h0 hrest, mapGetD (histUpdateOne t hs item) id [] = h0 :: hrest ∧
          h0.exec_cost.polynomial = p) := by
  by_cases hid : item.id = id
  · have hlook := histUpdateOne_lookup_self t hs item
    rw [hid] at hlook
    have hp : item.exec_cost.polynomial = p := hitem hid
    cases hh : mapGetD hs id [] with
    | nil =>
      simp only [hh] at hlook
      refine ⟨by rw [hlook]; simp, Or.inr ?_⟩
      exact ⟨_, _, hlook, by simpa using hp⟩
    | cons h0 hrest =>
      simp only [hh] at hlook
      by_cases hpoly : h0.exec_cost.polynomial = item.exec_cost.polynomial
      · rw [if_pos hpoly] at hlook
        refine ⟨by rw [hlook, ← hh]; exact hlen, Or.inr ?_⟩
        exact ⟨h0, hrest, hlook, hpoly.trans hp⟩
      · rw [if_neg hpoly] at hlook
        have hold : (h0 :: hrest).length ≤ n0 := by
          rcases hdisj with hle | ⟨h0', hrest', heq, hpol⟩
          · rw [hh] at hle; exact hle
          · rw [hh] at heq
            cases heq
            exact absurd (hpol.trans hp.symm) hpoly
        refine ⟨?_, Or.inr ⟨_, _, hlook, by simpa using hp⟩⟩
        rw [hlook]
        simpa using Nat.succ_le_succ hold
  · have hlook := histUpdateOne_lookup_ne t hs item id (fun he => hid he.symm)
    rw [hlook]
    exact ⟨hlen, hdisj⟩

theorem foldl_histUpdateOne_growth (t : String) :
    ∀ (items : List InferCostItem) (hs : List (String × List InferCostItem))
      (id p : String) (n0 : Nat),
      (∀ item ∈ items, item.id = id → item.exec_cost.polynomial = p) →
      (mapGetD hs id []).length ≤ n0 + 1 →
      ((mapGetD hs id []).length ≤ n0 ∨
        ∃ h0 hrest, mapGetD hs id [] = h0 :: hrest ∧ h0.exec_cost.polynomial = p) →
      (mapGetD (items.foldl (histUpdateOne t) hs) id []).length ≤ n0 + 1 ∧
        ((mapGetD (items.foldl (histUpdateOne t) hs) id []).length ≤ n0 ∨
          ∃ h0 hrest, mapGetD (items.foldl (histUpdateOne t) hs) id [] = h0 :: hrest ∧
            h0.exec_cost.polynomial = p) := by
  intro items
  induction items with
  | nil => intro hs id p n0 _ hlen hdisj; exact ⟨hlen, hdisj⟩
  | cons item rest ih =>
    intro hs id p n0 hall hlen hdisj
    simp only [List.foldl_cons]
    obtain ⟨hlen', hdisj'⟩ := histUpdateOne_growth t hs item id p n0
      (hall item (List.mem_cons_self _ _)) hlen hdisj
    exact ih _ id p n0 (fun it hm => hall it (List.mem_cons_of_mem _ hm)) hlen' hdisj'

theorem runs_histories_growth (id p : String) :
    ∀ (runs : List (String × List InferCostItem)) (st : ExtensionState) (n0 : Nat),
      (∀ r ∈ runs, ∀ item ∈ r.2, item.id = id → item.exec_cost.polynomial = p) →
      (mapGetD st.inferCostHistories id []).length ≤ n0 + 1 →
      ((mapGetD st.inferCostHistories id []).length ≤ n0 ∨
        ∃ h0 hrest, mapGetD st.inferCostHistories id [] = h0 :: hrest ∧
          h0.exec_cost.polynomial = p) →
      (mapGetD (runs.foldl (fun s r =>
          updateInferCostHistory r.1 { s with currentInferCost := r.2 }) st).inferCostHistories
        id []).length ≤ n0 + 1 := by
  intro runs
  induction runs with
  | nil => intro st n0 _ hlen _; simpa using hlen
  | cons run rest ih =>
    intro st n0 hall hlen hdisj
    simp only [List.foldl_cons]
    have hstep : (updateInferCostHistory run.1
        { st with currentInferCost := run.2 }).inferCostHistories =
        run.2.foldl (histUpdateOne run.1) st.inferCostHistories := by
      unfold updateInferCostHistory
      simp [updateInferCostHistoryAux_snd]
    obtain ⟨hlen', hdisj'⟩ := foldl_histUpdateOne_growth run.1 run.2 st.inferCostHistories
      id p n0 (hall run (List.mem_cons_self _ _)) hlen hdisj
    apply ih _ n0 (fun r hm => hall r (List.mem_cons_of_mem _ hm))
    · rw [hstep]; exact hlen'
    · rw [hstep]; exact hdisj'

/-- C3: processing one cost entry prepends it (stamped with the current
time) to its id's history exactly when the history is empty or its head's
`exec_cost.polynomial` differs; `updateInferCostHistory` is the fold of this
step over the current cost list; consequently, across any sequence of runs
whose entries for a given id all carry the same polynomial, that id's
history grows by at most one entry. -/
theorem updateInferCostHistory_step_and_growth :
    (∀ (t : String) (hs : List (String × List InferCostItem)) (item : InferCostItem),
      mapGetD (histUpdateOne t hs item) item.id [] =
        (match mapGetD hs item.id [] with
         | [] => [{ item with timestamp := some t }]
         | h0 :: hrest =>
           if h0.exec_cost.polynomial = item.exec_cost.polynomial then h0 :: hrest
           else { item with timestamp := some t } :: h0 :: hrest)) ∧
    (∀ (t : String) (st : ExtensionState),
      (updateInferCostHistory t st).inferCostHistories =
        st.currentInferCost.foldl (histUpdateOne t) st.inferCostHistories) ∧
    (∀ (runs : List (String × List InferCostItem)) (st : ExtensionState) (id p : String),
      (∀ r ∈ runs, ∀ item ∈ r.2, item.id = id → item.exec_cost.polynomial = p) →
      (mapGetD (runs.foldl (fun s r =>
          updateInferCostHistory r.1 { s with currentInferCost := r.2 }) st).inferCostHistories
        id []).length ≤ (mapGetD st.inferCostHistories id []).length + 1) := by
  refine ⟨histUpdateOne_lookup_self, ?_, ?_⟩
  · intro t st
    unfold updateInferCostHistory
    simp [updateInferCostHistoryAux_snd]
  · intro runs st id p hall
    exact runs_histories_growth id p runs st (mapGetD st.inferCostHistories id []).length
      hall (Nat.le_succ _) (Or.inl (Nat.le_refl _))

theorem updateInferCostHistory_step_and_growth_witness :
    (∀ r ∈ [("t1", [linearCostItem]), ("t2", [linearCostItem])],
      ∀ item ∈ r.2, item.id = "Test.java:x" → item.exec_cost.polynomial = "n") ∧
    (mapGetD ([("t1", [linearCostItem]), ("t2", [linearCostItem])].foldl
        (fun s r => updateInferCostHistory r.1 { s with currentInferCost := r.2 })
        noSnapshotState).inferCostHistories "Test.java:x" []).length ≤
      (mapGetD noSnapshotState.inferCostHistories "Test.java:x" []).length + 1 :=
  ⟨by decide,
    updateInferCostHistory_step_and_growth.2.2
      [("t1", [linearCostItem]), ("t2", [linearCostItem])] noSnapshotState
      "Test.java:x" "n" (by decide)⟩

/-! ## C10: attribution overwrite -/

theorem attributionPass_spec (causeMap : List (String × List String)) :
    ∀ (items : List InferCostItem) (hists : List (String × List InferCostItem))
      (items' : List InferCostItem) (hists' : List (String × List InferCostItem)),
      attributionPass causeMap hists items = some (items', hists') →
      (∀ k h, mapGet hists k = some h → ∀ e ∈ h, e.id = k) →
      (items.map (fun it => it.id)).Nodup →
      (items' = items.map (fun it =>
        { it with changeCauseMethods := mapGet causeMap (costItemKey it) }) ∧
      (∀ it ∈ items, ∀ h0 hrest, mapGet hists it.id = some (h0 :: hrest) →
        mapGet hists' it.id =
          some ({ h0 with changeCauseMethods := mapGet causeMap (costItemKey it) } :: hrest)) ∧
      (∀ k, (∀ it ∈ items, it.id ≠ k) → mapGet hists' k = mapGet hists k) ∧
      (∀ k h, mapGet hists' k = some h → ∀ e ∈ h, e.id = k)) := by
  intro items
  induction items with
  | nil =>
    intro hists items' hists' hres hwell _
    simp [attributionPass] at hres
    refine ⟨by rw [hres.1]; simp, by simp, fun k _ => by rw [← hres.2], ?_⟩
    rw [← hres.2]
    exact hwell
  | cons it rest ih =>
    intro hists items' hists' hres hwell hnodup
    have hnodup1 : it.id ∉ rest.map (fun it2 => it2.id) := by
      simp only [List.map_cons, List.nodup_cons] at hnodup
      exact hnodup.1
    have hnodup2 : (rest.map (fun it2 => it2.id)).Nodup := by
      simp only [List.map_cons, List.nodup_cons] at hnodup
      exact hnodup.2
    cases hm : mapGet hists it.id with
    | none =>
      simp only [attributionPass, hm] at hres
      cases hrec : attributionPass causeMap hists rest with
      | none => simp [hrec] at hres
      | some r =>
        simp [hrec] at hres
        obtain ⟨hitems, hhist, hframe, hwell'⟩ :=
          ih hists r.1 r.2 (by rw [hrec]) hwell hnodup2
        refine ⟨?_, ?_, ?_, ?_⟩
        · rw [← hres.1, hitems]
          simp
        · intro it2 hit2 h0 hrest0 hm2
          rcases List.mem_cons.mp hit2 with rfl | hmem
          · rw [hm] at hm2; cases hm2
          · rw [← hres.2]
            exact hhist it2 hmem h0 hrest0 hm2
        · intro k hk
          rw [← hres.2]
          exact hframe k (fun it2 hm2 => hk it2 (List.mem_cons_of_mem _ hm2))
        · rw [← hres.2]
          exact hwell'
    | some h =>
      cases h with
      | nil => simp [attributionPass, hm] at hres
      | cons h0 hrest0 =>
        have hh0 : h0.id = it.id := hwell it.id (h0 :: hrest0) hm h0 (List.mem_cons_self _ _)
        have hrestids : ∀ e ∈ hrest0, e.id = it.id :=
          fun e he => hwell it.id (h0 :: hrest0) hm e (List.mem_cons_of_mem _ he)
        simp only [attributionPass, hm] at hres
        set cms := mapGet causeMap (costItemKey it) with hcms
        set h0' : InferCostItem := { h0 with changeCauseMethods := cms } with hh0'
        have hh0id : h0'.id = it.id := hh0
        set hists1 := mapSet (mapSet hists it.id (h0' :: hrest0)) h0'.id (h0' :: hrest0)
          with hhists1
        have hget1self : mapGet hists1 it.id = some (h0' :: hrest0) := by
          rw [hhists1, hh0id]
          exact mapGet_mapSet_self _ _ _
        have hget1ne : ∀ k, k ≠ it.id → mapGet hists1 k = mapGet hists k := by
          intro k hk
          rw [hhists1, hh0id]
          rw [mapGet_mapSet_ne _ _ _ _ (fun he => hk he.symm),
            mapGet_mapSet_ne _ _ _ _ (fun he => hk he.symm)]
        have hwell1 : ∀ k h, mapGet hists1 k = some h → ∀ e ∈ h, e.id = k := by
          intro k h hgk e he
          by_cases hk : k = it.id
          · subst hk
            rw [hget1self] at hgk
            cases hgk
            rcases List.mem_cons.mp he with rfl | hmem
            · exact hh0id
            · exact hrestids e hmem
          · rw [hget1ne k hk] at hgk
            exact hwell k h hgk e he
        cases hrec : attributionPass causeMap hists1 rest with
        | none => simp [hrec] at hres
        | some r =>
          simp [hrec] at hres
          obtain ⟨hrest_eq, hhist, hframe, hwell'⟩ := ih hists1 r.1 r.2 (by rw [hrec]) hwell1 hnodup2
          refine ⟨?_, ?_, ?_, ?_⟩
          · rw [← hres.1, hrest_eq]
            simp [hcms]
          · intro it2 hit2 g0 grest hm2
            rcases List.mem_cons.mp hit2 with rfl | hmem
            · rw [hm] at hm2
              cases hm2
              rw [← hres.2]
              rw [hframe it2.id (fun it3 hit3 hco =>
                hnodup1 (hco ▸ List.mem_map_of_mem (fun x => x.id) hit3))]
              exact hget1self
            · have hne : it2.id ≠ it.id := by
                intro hco
                exact hnodup1 (hco ▸ List.mem_map_of_mem (fun x => x.id) hmem)
              rw [← hres.2]
              exact hhist it2 hmem g0 grest (by rw [hget1ne it2.id hne]; exact hm2)
          · intro k hk
            rw [← hres.2]
            rw [hframe k (fun it2 hm2 => hk it2 (List.mem_cons_of_mem _ hm2))]
            exact hget1ne k (fun he => hk it (List.mem_cons_self _ _) he.symm)
          · rw [← hres.2]
            exact hwell'

/-- C10: every call of `significantCodeChangeCheck` that proceeds past the
snapshot check — i.e. that finds a previous snapshot that is not the falsy
empty string — overwrites the `changeCauseMethods` of every current cost
entry, and of the head of that entry's existing history, with the cause-map
entry for its identity — absent entries clear the field. -/
theorem significantCodeChangeCheck_overwrites_attribution
    (methodWhitelist : List String) (savedText previousText : String)
    (st : ExtensionState)
    (hprev : mapGet st.savedDocumentTexts st.activeFileName = some previousText)
    (hne : previousText ≠ "")
    (hwell : ∀ k h, mapGet st.inferCostHistories k = some h → ∀ e ∈ h, e.id = k)
    (hnodup : (st.currentInferCost.map (fun it => it.id)).Nodup)
    (b : Bool) (st' : ExtensionState)
    (hres : significantCodeChangeCheck methodWhitelist savedText st = some (b, st')) :
    ∃ cm, classifyDiff methodWhitelist st.nonConstantMethods previousText savedText =
        some (b, cm) ∧
      st'.currentInferCost = st.currentInferCost.map
        (fun it => { it with changeCauseMethods := mapGet cm (costItemKey it) }) ∧
      ∀ it ∈ st.currentInferCost, ∀ h0 hrest,
        mapGet st.inferCostHistories it.id = some (h0 :: hrest) →
        mapGet st'.inferCostHistories it.id =
          some ({ h0 with changeCauseMethods := mapGet cm (costItemKey it) } :: hrest) := by
  unfold significantCodeChangeCheck at hres
  simp only [hprev] at hres
  rw [if_neg hne] at hres
  cases hc : classifyDiff methodWhitelist st.nonConstantMethods previousText savedText with
  | none => simp [hc] at hres
  | some r =>
    simp [hc] at hres
    cases ha : attributionPass r.2 st.inferCostHistories st.currentInferCost with
    | none => simp [ha] at hres
    | some a =>
      simp [ha] at hres
      obtain ⟨hitems, hhist, _, _⟩ :=
        attributionPass_spec r.2 st.currentInferCost st.inferCostHistories a.1 a.2
          (by rw [ha]) hwell hnodup
      refine ⟨r.2, ?_, ?_, ?_⟩
      · rw [← hres.1]
      · rw [← hres.2]
        simpa using hitems
      · intro it hit h0 hrest hm
        rw [← hres.2]
        simpa using hhist it hit h0 hrest hm

theorem significantCodeChangeCheck_overwrites_attribution_witness :
    ∃ cm, classifyDiff [] registryHistoryState.nonConstantMethods "int y;\n" "int y;\n" =
        some (false, cm) ∧
      registryHistoryStateAfter.currentInferCost = registryHistoryState.currentInferCost.map
        (fun it => { it with changeCauseMethods := mapGet cm (costItemKey it) }) ∧
      ∀ it ∈ registryHistoryState.currentInferCost, ∀ h0 hrest,
        mapGet registryHistoryState.inferCostHistories it.id = some (h0 :: hrest) →
        mapGet registryHistoryStateAfter.inferCostHistories it.id =
          some ({ h0 with changeCauseMethods := mapGet cm (costItemKey it) } :: hrest) :=
  significantCodeChangeCheck_overwrites_attribution [] "int y;\n" "int y;\n"
    registryHistoryState (by decide) (by decide)
    (by
      intro k h hg e he
      by_cases hk : ("Test.java:x" : String) = k
      · subst hk
        simp [registryHistoryState, mapGet] at hg
        subst hg
        simp at he
        subst he
        decide
      · simp [registryHistoryState, mapGet, hk] at hg)
    (by decide) false registryHistoryStateAfter (by decide)

/-! ## C1 / C2: per-occurrence significance -/

theorem processMatches_true_mono (wl reg : List String)
    (tyExt : List (String × String)) (pv : String) :
    ∀ (ms : List String) (cont : String) (cm : List (String × List String))
      (r : String × Bool × List (String × List String)),
      processMatches wl reg tyExt pv cont (true, cm) ms = some r → r.2.1 = true := by
  intro ms
  induction ms with
  | nil =>
    intro cont cm r h
    simp only [processMatches] at h
    rw [← Option.some.inj h]
  | cons m ms ih =>
    intro cont cm r h
    simp only [processMatches] at h
    cases hk : lastDeclKey tyExt (splitHead pv m) cont with
    | none => simp [hk] at h
    | some cont' =>
      simp only [hk, Option.bind_eq_bind, Option.some_bind] at h
      cases hs : occurrenceSignificant wl reg m with
      | true => simp only [hs, if_true] at h; exact ih cont' _ r h
      | false => simp only [hs, Bool.false_eq_true, if_false] at h; exact ih cont' cm r h

theorem processMatches_trigger (wl reg : List String) (tyExt : List (String × String))
    (pv : String) (m : String) (hsig : occurrenceSignificant wl reg m = true) :
    ∀ (ms : List String), m ∈ ms →
      ∀ (cont : String) (acc : Bool × List (String × List String))
        (r : String × Bool × List (String × List String)),
        processMatches wl reg tyExt pv cont acc ms = some r → r.2.1 = true := by
  intro ms
  induction ms with
  | nil => intro hm; cases hm
  | cons m0 ms ih =>
    intro hm cont acc r h
    simp only [processMatches] at h
    cases hk : lastDeclKey tyExt (splitHead pv m0) cont with
    | none => simp [hk] at h
    | some cont' =>
      simp only [hk, Option.bind_eq_bind, Option.some_bind] at h
      rcases List.mem_cons.mp hm with rfl | hmem
      · simp only [hsig, if_true] at h
        exact processMatches_true_mono wl reg tyExt pv ms cont' _ r h
      · cases hs : occurrenceSignificant wl reg m0 with
        | true =>
          simp only [hs, if_true] at h
          exact processMatches_true_mono wl reg tyExt pv ms cont' _ r h
        | false =>
          simp only [hs, Bool.false_eq_true, if_false] at h
          exact ih hmem cont' acc r h

theorem classifyParts_true_mono (wl reg : List String) (tyExt : List (String × String)) :
    ∀ (rest processed : List LineDiff) (cm : List (String × List String))
      (r : Bool × List (String × List String)),
      classifyParts wl reg tyExt processed rest (true, cm) = some r → r.1 = true := by
  intro rest
  induction rest with
  | nil =>
    intro processed cm r h
    simp only [classifyParts] at h
    rw [← Option.some.inj h]
  | cons part rest ih =>
    intro processed cm r h
    simp only [classifyParts] at h
    by_cases hp : (part.added || part.removed) = true
    · simp only [hp, eq_self_iff_true, if_true] at h
      by_cases hms : (allOccMatches (replaceDecls part.value)).isEmpty
      · simp [hms] at h
        exact ih _ cm r h
      · simp only [hms, Bool.false_eq_true, if_false] at h
        cases hsc : scanContaining tyExt processed with
        | none => simp [hsc] at h
        | some cont =>
          simp only [hsc, Option.bind_eq_bind, Option.some_bind] at h
          cases hpm : processMatches wl reg tyExt part.value cont (true, cm)
              (allOccMatches (replaceDecls part.value)) with
          | none => simp [hpm] at h
          | some pr =>
            simp only [hpm, Option.bind_eq_bind, Option.some_bind] at h
            have hpr : pr.2.1 = true :=
              processMatches_true_mono wl reg tyExt part.value _ cont cm pr hpm
            have hpr2 : pr.2 = (true, pr.2.2) := by rw [← hpr]
            rw [hpr2] at h
            exact ih _ pr.2.2 r h
    · simp [hp] at h
      exact ih _ cm r h

theorem classifyParts_trigger (wl reg : List String) (tyExt : List (String × String))
    (part : LineDiff) (m : String)
    (hsig : occurrenceSignificant wl reg m = true)
    (hpart : (part.added || part.removed) = true)
    (hm : m ∈ allOccMatches (replaceDecls part.value)) :
    ∀ (rest processed : List LineDiff) (acc : Bool × List (String × List String))
      (r : Bool × List (String × List String)),
      part ∈ rest →
      classifyParts wl reg tyExt processed rest acc = some r → r.1 = true := by
  intro rest
  induction rest with
  | nil => intro processed acc r hin; cases hin
  | cons p0 rest ih =>
    intro processed acc r hin h
    simp only [classifyParts] at h
    rcases List.mem_cons.mp hin with rfl | hmem
    · simp only [hpart, eq_self_iff_true, if_true] at h
      have hms : ¬(allOccMatches (replaceDecls part.value)).isEmpty = true := by
        intro hc
        rw [List.isEmpty_iff] at hc
        rw [hc] at hm
        cases hm
      simp only [hms, Bool.false_eq_true, if_false] at h
      cases hsc : scanContaining tyExt processed with
      | none => simp [hsc] at h
      | some cont =>
        simp only [hsc, Option.bind_eq_bind, Option.some_bind] at h
        cases hpm : processMatches wl reg tyExt part.value cont acc
            (allOccMatches (replaceDecls part.value)) with
        | none => simp [hpm] at h
        | some pr =>
          simp only [hpm, Option.bind_eq_bind, Option.some_bind] at h
          have hpr : pr.2.1 = true :=
            processMatches_trigger wl reg tyExt part.value m hsig _ hm cont acc pr hpm
          have hpr2 : pr.2 = (true, pr.2.2) := by rw [← hpr]
          rw [hpr2] at h
          exact classifyParts_true_mono wl reg tyExt rest (processed ++ [part]) pr.2.2 r h
    · by_cases hp : (p0.added || p0.removed) = true
      · simp only [hp, eq_self_iff_true, if_true] at h
        by_cases hms : (allOccMatches (replaceDecls p0.value)).isEmpty
        · simp [hms] at h
          exact ih (processed ++ [p0]) acc r hmem h
        · simp only [hms, Bool.false_eq_true, if_false] at h
          cases hsc : scanContaining tyExt processed with
          | none => simp [hsc] at h
          | some cont =>
            simp only [hsc, Option.bind_eq_bind, Option.some_bind] at h
            cases hpm : processMatches wl reg tyExt p0.value cont acc
                (allOccMatches (replaceDecls p0.value)) with
            | none => simp [hpm] at h
            | some pr =>
              simp only [hpm, Option.bind_eq_bind, Option.some_bind] at h
              exact ih (processed ++ [p0]) pr.2 r hmem h
      · simp [hp] at h
        exact ih (processed ++ [p0]) acc r hmem h

/-- C1 counterexample: the new text adds a `for (...)` occurrence (the diff
has an added segment whose occurrence scan finds a token named `for`), yet
with `for` on the method whitelist the classifier reports *not* significant,
refuting "unconditionally, regardless of the whitelist". -/
theorem significantCodeChangeCheck_whitelisted_loop_counterexample :
    ((diffLines "int x;\n" loopSavedText).any (fun part =>
      (part.added || part.removed) &&
        (allOccMatches (replaceDecls part.value)).any
          (fun m => methodNameOfOccurrence m == "for"))) = true ∧
    significantCodeChangeCheck ["for"] loopSavedText loopState = some (false, loopStateAfter) :=
  ⟨by decide, by decide⟩

/-- C1 as amended: when a non-empty previous snapshot exists, an added or
removed `while (...)`/`for (...)` occurrence makes the classifier report
significance regardless of the Non-Constant Registry, provided the token
(`while`/`for`) is not on the method whitelist (an empty-string snapshot is
falsy under the line-75 guard and returns `false` like an absent one). -/
theorem significantCodeChangeCheck_loop_occurrence_significant
    (methodWhitelist : List String) (savedText previousText : String)
    (st : ExtensionState)
    (hprev : mapGet st.savedDocumentTexts st.activeFileName = some previousText)
    (hne : previousText ≠ "")
    (part : LineDiff) (hpartmem : part ∈ diffLines previousText savedText)
    (hpart : (part.added || part.removed) = true)
    (m : String) (hm : m ∈ allOccMatches (replaceDecls part.value))
    (hname : methodNameOfOccurrence m = "while" ∨ methodNameOfOccurrence m = "for")
    (hwl : methodWhitelist.contains (methodNameOfOccurrence m) = false)
    (b : Bool) (st' : ExtensionState)
    (hres : significantCodeChangeCheck methodWhitelist savedText st = some (b, st')) :
    b = true := by
  have hwf : (["while", "for"].contains (methodNameOfOccurrence m)) = true := by
    rcases hname with h | h <;> rw [h] <;> decide
  have hsig : occurrenceSignificant methodWhitelist st.nonConstantMethods m = true := by
    simp only [occurrenceSignificant]
    rw [hwl, hwf]
    simp
  unfold significantCodeChangeCheck at hres
  simp only [hprev] at hres
  rw [if_neg hne] at hres
  cases hc : classifyDiff methodWhitelist st.nonConstantMethods previousText savedText with
  | none => simp [hc] at hres
  | some r =>
    simp [hc] at hres
    cases ha : attributionPass r.2 st.inferCostHistories st.currentInferCost with
    | none => simp [ha] at hres
    | some a =>
      simp [ha] at hres
      have hb : r.1 = b := hres.1
      have htrue : r.1 = true := by
        unfold classifyDiff at hc
        exact classifyParts_trigger methodWhitelist st.nonConstantMethods
          (getGenericTypeExtensions previousText) part m hsig hpart hm
          (diffLines previousText savedText) [] (false, []) r hpartmem hc
      rw [← hb, htrue]

theorem significantCodeChangeCheck_loop_occurrence_significant_witness :
    (LineDiff.mk "for (int i=0;i<n;i++)" true false) ∈ diffLines "int x;\n" loopSavedText ∧
    "for (int i=0;i<n;i++)" ∈ allOccMatches (replaceDecls "for (int i=0;i<n;i++)") ∧
    (true : Bool) = true :=
  ⟨by decide, by decide,
    significantCodeChangeCheck_loop_occurrence_significant [] loopSavedText "int x;\n"
      loopState (by decide) (by decide) ⟨"for (int i=0;i<n;i++)", true, false⟩ (by decide) (by decide)
      "for (int i=0;i<n;i++)" (by decide) (Or.inr (by decide)) (by decide) true
      loopStateAfter (by decide)⟩

/-- C2: a call-like occurrence (name not `while`/`for`) is significant iff
its name is in the Non-Constant Registry and not on the whitelist; in
particular scenario A (`baz` registered, empty whitelist) yields significant
with cause map `foo(int) → ["baz()"]`, and scenario B (`baz` whitelisted)
yields not-significant with an empty cause map. -/
theorem significantCodeChangeCheck_call_occurrence_iff :
    (∀ (methodWhitelist nonConstantMethods : List String) (m : String),
      ¬(methodNameOfOccurrence m = "while" ∨ methodNameOfOccurrence m = "for") →
      occurrenceSignificant methodWhitelist nonConstantMethods m =
        (nonConstantMethods.contains (methodNameOfOccurrence m) &&
          !methodWhitelist.contains (methodNameOfOccurrence m))) ∧
    classifyDiff [] ["baz"] "void foo(int x) { bar(); }" "void foo(int x) { bar(); baz(); }" =
      some (true, [("foo(int)", ["baz()"])]) ∧
    (significantCodeChangeCheck [] "void foo(int x) { bar(); baz(); }" scenarioState).map
      (fun r => r.1) = some true ∧
    classifyDiff ["baz"] ["baz"] "void foo(int x) { bar(); }"
      "void foo(int x) { bar(); baz(); }" = some (false, []) ∧
    (significantCodeChangeCheck ["baz"] "void foo(int x) { bar(); baz(); }" scenarioState).map
      (fun r => r.1) = some false := by
  refine ⟨?_, by decide, by decide, by decide, by decide⟩
  intro wl reg m hn
  have h1 : methodNameOfOccurrence m ≠ "while" := fun h => hn (Or.inl h)
  have h2 : methodNameOfOccurrence m ≠ "for" := fun h => hn (Or.inr h)
  simp [occurrenceSignificant, h1, h2, Bool.and_comm]

theorem significantCodeChangeCheck_call_occurrence_iff_witness :
    ¬(methodNameOfOccurrence "baz()" = "while" ∨ methodNameOfOccurrence "baz()" = "for") ∧
    occurrenceSignificant [] ["baz"] "baz()" =
      (["baz"].contains (methodNameOfOccurrence "baz()") &&
        !([] : List String).contains (methodNameOfOccurrence "baz()")) :=
  ⟨by decide, significantCodeChangeCheck_call_occurrence_iff.1 [] ["baz"] "baz()" (by decide)⟩

/-! ## C5: the notification is only fired past the snapshot check -/

/-- C5 counterexample: a call with no previous snapshot returns `false` and
does *not* fire the `significantCodeChange` notification (the fire counter
stays at `0`, not `1`), refuting "fires exactly once on every call". -/
theorem significantCodeChangeCheck_no_fire_counterexample :
    significantCodeChangeCheck [] "void a() {}" noSnapshotState = some (false, noSnapshotState) ∧
    (significantCodeChangeCheck [] "void a() {}" noSnapshotState).map
      (fun r => r.2.significantCodeChangeFireCount) = some 0 ∧
    noSnapshotState.significantCodeChangeFireCount = 0 :=
  ⟨by decide, by decide, by decide⟩

/-- C5 as amended: every call that finds a *non-empty* previous snapshot and
returns fires the notification exactly once, regardless of the returned
boolean (with no snapshot, or with a stored empty-string snapshot — both
falsy under the line-75 guard — the call returns `false` without firing). -/
theorem significantCodeChangeCheck_fires_once_with_snapshot
    (methodWhitelist : List String) (savedText previousText : String)
    (st : ExtensionState)
    (hprev : mapGet st.savedDocumentTexts st.activeFileName = some previousText)
    (hne : previousText ≠ "")
    (b : Bool) (st' : ExtensionState)
    (hres : significantCodeChangeCheck methodWhitelist savedText st = some (b, st')) :
    st'.significantCodeChangeFireCount = st.significantCodeChangeFireCount + 1 := by
  unfold significantCodeChangeCheck at hres
  simp only [hprev] at hres
  rw [if_neg hne] at hres
  cases hc : classifyDiff methodWhitelist st.nonConstantMethods previousText savedText with
  | none => simp [hc] at hres
  | some r =>
    simp [hc] at hres
    cases ha : attributionPass r.2 st.inferCostHistories st.currentInferCost with
    | none => simp [ha] at hres
    | some a =>
      simp [ha] at hres
      rw [← hres.2]

theorem significantCodeChangeCheck_fires_once_with_snapshot_witness :
    mapGet scenarioState.savedDocumentTexts scenarioState.activeFileName =
      some "void foo(int x) { bar(); }" ∧
    scenarioStateAfter.significantCodeChangeFireCount =
      scenarioState.significantCodeChangeFireCount + 1 :=
  ⟨by decide,
    significantCodeChangeCheck_fires_once_with_snapshot ["baz"]
      "void foo(int x) { bar(); baz(); }" "void foo(int x) { bar(); }" scenarioState
      (by decide) (by decide) false scenarioStateAfter (by decide)⟩

/-! ## C6: determinism of the classifier -/

/-- C6: two calls with the same previous snapshot, the same saved text, the
same Non-Constant Registry and the same whitelist — whatever the rest of the
state — return the same significance boolean, and the classifier's cause map
(computed by `classifyDiff`) is the same. -/
theorem significantCodeChangeCheck_deterministic
    (methodWhitelist : List String) (savedText previousText : String)
    (st1 st2 : ExtensionState)
    (h1 : mapGet st1.savedDocumentTexts st1.activeFileName = some previousText)
    (h2 : mapGet st2.savedDocumentTexts st2.activeFileName = some previousText)
    (hreg : st1.nonConstantMethods = st2.nonConstantMethods)
    (b1 b2 : Bool) (st1' st2' : ExtensionState)
    (hr1 : significantCodeChangeCheck methodWhitelist savedText st1 = some (b1, st1'))
    (hr2 : significantCodeChangeCheck methodWhitelist savedText st2 = some (b2, st2')) :
    b1 = b2 ∧
      classifyDiff methodWhitelist st1.nonConstantMethods previousText savedText =
        classifyDiff methodWhitelist st2.nonConstantMethods previousText savedText := by
  refine ⟨?_, by rw [hreg]⟩
  unfold significantCodeChangeCheck at hr1 hr2
  simp only [h1] at hr1
  simp only [h2] at hr2
  by_cases hemp : previousText = ""
  · rw [if_pos hemp] at hr1 hr2
    simp at hr1 hr2
    rw [hr1.1, hr2.1]
  rw [if_neg hemp] at hr1 hr2
  rw [hreg] at hr1
  cases hc : classifyDiff methodWhitelist st2.nonConstantMethods previousText savedText with
  | none =>
    simp [hc] at hr1
  | some r =>
    simp [hc] at hr1 hr2
    cases ha1 : attributionPass r.2 st1.inferCostHistories st1.currentInferCost with
    | none => simp [ha1] at hr1
    | some a1 =>
      cases ha2 : attributionPass r.2 st2.inferCostHistories st2.currentInferCost with
      | none => simp [ha2] at hr2
      | some a2 =>
        simp [ha1] at hr1
        simp [ha2] at hr2
        rw [← hr1.1, ← hr2.1]

theorem significantCodeChangeCheck_deterministic_witness :
    mapGet scenarioState.savedDocumentTexts scenarioState.activeFileName =
      some "void foo(int x) { bar(); }" ∧
    (true : Bool) = true :=
  ⟨by decide,
    (significantCodeChangeCheck_deterministic []
      "void foo(int x) { bar(); baz(); }" "void foo(int x) { bar(); }"
      scenarioState scenarioState (by decide) (by decide) rfl
      true true scenarioStateAfter scenarioStateAfter (by decide) (by decide)).1⟩

theorem nonConstantMethods_reset_and_frame_witness :
    ("keep" ∈ registryState.nonConstantMethods ∧
      (resetNonConstantMethods registryState).nonConstantMethods = []) ∧
    "keep" ∈ (resetNonConstantMethodsForFile registryState).nonConstantMethods :=
  ⟨⟨by decide, nonConstantMethods_reset_and_frame.1 registryState⟩,
    nonConstantMethods_reset_and_frame.2 registryState "keep" (by decide) (by decide)⟩

end InferForVSCode
